import Mathlib

/-!
Verification of the version/constraint core of the secos-backports pipeline.

The repository's `src/data/prepare.py` and `src/data/convert.py` are embedded
as Lean functions over lists.  The `Version` / `Interval` value types and the
constraint parsers live in `version.py` / `parsers.py`, which are not part of
the available sources; those are modelled from the specification (each such
definition carries a doc comment starting with `Modelled from the spec:`).

Dates are modelled as integers on an absolute day scale whose origin is
1900-01-01, so the pandas sentinel `Timestamp('1900-01-01')` used in
`prepare.py` is the integer 0.
-/

namespace Secos

/-- Modelled from the spec: `version.py` is not under `src/`.  A semantic
version is an ordered triple (major, minor, patch), each a non-negative
number or the sentinel infinity (here `⊤` of `WithTop Nat`). -/
structure Version where
  major : WithTop Nat
  minor : WithTop Nat
  patch : WithTop Nat
deriving DecidableEq, Repr

/-- Modelled from the spec: lexicographic strict order on (major, minor,
patch), the infinity sentinel being greater than every finite value. -/
def Version.ltb (a b : Version) : Bool :=
  decide (a.major < b.major) ||
    (a.major == b.major && (decide (a.minor < b.minor) ||
      (a.minor == b.minor && decide (a.patch < b.patch))))

/-- Modelled from the spec: non-strict version order. -/
def Version.leb (a b : Version) : Bool :=
  Version.ltb a b || a == b

/-- Modelled from the spec: one contiguous range of an interval, with an
inclusive lower bound and an exclusive upper bound (`none` meaning
unbounded above). -/
structure VRange where
  lower : Version
  upper : Option Version
deriving DecidableEq, Repr

/-- Modelled from the spec: membership of a version in one range. -/
def VRange.mem (v : Version) (R : VRange) : Bool :=
  Version.leb R.lower v &&
    (match R.upper with
     | none => true
     | some u => Version.ltb v u)

/-- Modelled from the spec: an interval is a finite, possibly empty union of
ranges. -/
structure Interval where
  ranges : List VRange
deriving DecidableEq, Repr

/-- Modelled from the spec: the empty interval (`Interval.empty()`). -/
def Interval.emptyI : Interval := ⟨[]⟩

/-- Modelled from the spec: the `interval.empty` test used by `prepare.py`. -/
def Interval.isEmpty (I : Interval) : Bool := I.ranges.isEmpty

/-- Modelled from the spec: `contains` is true iff the version falls in one of
the constituent ranges. -/
def Interval.contains (I : Interval) (v : Version) : Bool :=
  I.ranges.any (VRange.mem v)

/-- Modelled from the spec: `interval.lower`, the lower bound of the first
range; the value on an empty interval is an arbitrary default, `prepare.py`
only reads it behind a non-emptiness test. -/
def Interval.lowerD (I : Interval) : Version :=
  match I.ranges with
  | [] => ⟨0, 0, 0⟩
  | R :: _ => R.lower

/-- Modelled from the spec: `Version(1,0,0) > interval` in `prepare.py` means
the version is above the whole interval: every range is bounded above and its
(exclusive) upper bound is at most the version. -/
def Version.aboveInterval (v : Version) (I : Interval) : Bool :=
  I.ranges.all (fun R =>
    match R.upper with
    | none => false
    | some u => Version.leb u v)

/-- Modelled from the spec: a constraint parser turns a raw string into an
Interval or a parse failure. -/
structure ConstraintParser where
  parse : String → Except String Interval

/-- Modelled from the spec: `parse_or_empty(parser, raw)` wraps `parse` and
downgrades any parse failure to the empty interval. -/
def parse_or_empty (p : ConstraintParser) (raw : String) : Interval :=
  match p.parse raw with
  | Except.ok i => i
  | Except.error _ => Interval.emptyI

/-- The five boolean constraint descriptors computed in `prepare.py`
(lines 200-209): `empty`, `dev`, `major`, `minor`, `patch`. -/
structure CDesc where
  empty : Bool
  dev : Bool
  major : Bool
  minor : Bool
  patch : Bool
deriving DecidableEq, Repr

/-- Embedding of the descriptor computation of `prepare.py` lines 200-209:
on an empty interval all descriptors but `empty` are false; otherwise each
descriptor tests membership of a sentinel version (or, for `dev`, whether
`Version(1,0,0)` is above the whole interval). -/
def descriptorsOf (I : Interval) : CDesc :=
  if I.isEmpty then ⟨true, false, false, false, false⟩
  else
    let base := I.lowerD
    { empty := false
      dev := Version.aboveInterval ⟨1, 0, 0⟩ I
      major := I.contains ⟨⊤, 0, 0⟩
      minor := I.contains ⟨base.major, ⊤, 0⟩
      patch := I.contains ⟨base.major, base.minor, ⊤⟩ }

/-! ### A generic stable insertion sort

`pandas.sort_values` is embedded as an insertion sort.  Every sort performed
by the pipeline is over pairwise-distinct keys (versions are deduplicated
upstream and ranks are distinct), so the particular stable order chosen for
ties never matters for the claims below. -/

/-- Insert an element into a list, before the first element it compares
`le` to. -/
def insertBy (le : α → α → Bool) (a : α) : List α → List α
  | [] => [a]
  | b :: l => if le a b then a :: b :: l else b :: insertBy le a l

/-- Sort a list by the boolean comparison `le` (embedding of
`pandas.sort_values`). -/
def sortBy (le : α → α → Bool) : List α → List α
  | [] => []
  | a :: l => insertBy le a (sortBy le l)

/-- A parser that fails on every input, used as a concrete witness. -/
def failingParser : ConstraintParser := ⟨fun _ => Except.error "unparsable"⟩

/-- A concrete one-range interval `[1.0.0, ∞)`, used as a concrete witness. -/
def sampleOpenInterval : Interval := ⟨[⟨⟨1, 0, 0⟩, none⟩]⟩

/-- A release row as consumed by the selector: a parsed version together
with its `rank` (version_rank) within its package. -/
structure SRel where
  version : Version
  rank : Nat
deriving DecidableEq, Repr

/-- The descending-rank comparison used by
`sort_values('rank', ascending=False)` in `prepare.py` line 223. -/
def rankDescLe (a b : SRel) : Bool := decide (b.rank ≤ a.rank)

/-- Embedding of `prepare.py` lines 216-236: sort the target's releases by
descending rank and return the rank of the first release whose version is
contained in the constraint's interval, absent when none is. -/
def selectedOf (l : List SRel) (I : Interval) : Option Nat :=
  ((sortBy rankDescLe l).find? (fun r => I.contains r.version)).map SRel.rank

/-- Widen the upper bound of the last range of a range list to unbounded. -/
def widenLast : List VRange → List VRange
  | [] => []
  | [R] => [⟨R.lower, none⟩]
  | R :: S :: rs => R :: widenLast (S :: rs)

/-- The interval with its upper bound widened to unbounded (ranges are kept
sorted by lower bound, so the interval's upper bound is the last range's). -/
def Interval.widenUpper (I : Interval) : Interval := ⟨widenLast I.ranges⟩

/-- The release set 1.0.0, 1.5.0, 1.9.0, 2.0.0 used by the spec's selector
example, with version ranks 1..4. -/
def sampleReleases : List SRel :=
  [⟨⟨1, 0, 0⟩, 1⟩, ⟨⟨1, 5, 0⟩, 2⟩, ⟨⟨1, 9, 0⟩, 3⟩, ⟨⟨2, 0, 0⟩, 4⟩]

/-- The constraint interval `[1.2.0, 2.0.0)` of the spec's selector example. -/
def sampleNarrow : Interval := ⟨[⟨⟨1, 2, 0⟩, some ⟨2, 0, 0⟩⟩]⟩

/-! ### HistoryClassifier (`prepare.py` lines 120-180)

A release row of one package's group: the three numeric version components,
the version rank and the date.  Dates are integer days since 1900-01-01, so
the sentinel `Timestamp('1900-01-01')` of `prepare.py` line 168 is 0. -/

/-- One release row of a package's group in `prepare.py`. -/
structure Rel where
  major : Nat
  minor : Nat
  patch : Nat
  rank : Nat
  date : Int
deriving DecidableEq, Repr

/-- The update kinds of `prepare.py` lines 126-132. -/
inductive UpdateKind where
  | initial
  | major
  | minor
  | patch
deriving DecidableEq, Repr

/-- Comparison of `sort_values('rank')` at `prepare.py` line 124. -/
def rankAscLe (a b : Rel) : Bool := decide (a.rank ≤ b.rank)

/-- Comparison of `sort_values(['date', 'rank'])` at `prepare.py` line 136. -/
def chronoLe (a b : Rel) : Bool :=
  decide (a.date < b.date) || (decide (a.date = b.date) && decide (a.rank ≤ b.rank))

/-- The update kind of a non-first release: `idxmax` over the booleans
`kinitial` (false for a non-first row), `kmajor`, `kminor`, `kpatch` in that
column order picks the first positive delta, and falls back to the first
column `kinitial` when every value is false (`prepare.py` lines 126-132). -/
def kindOf (prev cur : Rel) : UpdateKind :=
  if prev.major < cur.major then UpdateKind.major
  else if prev.minor < cur.minor then UpdateKind.minor
  else if prev.patch < cur.patch then UpdateKind.patch
  else UpdateKind.initial

/-- Kind assignment for the tail of a rank-sorted group, carrying the
previous row (`shift(1)` in `prepare.py`). -/
def kindsGo (prev : Rel) : List Rel → List (Rel × UpdateKind)
  | [] => []
  | r :: rs => (r, kindOf prev r) :: kindsGo r rs

/-- Embedding of the update-kind assignment of `prepare.py` lines 124-133:
sort by rank; the first row has `kinitial = true` and gets `initial`, later
rows get `kindOf` of themselves and their predecessor. -/
def updateKindsOf (l : List Rel) : List (Rel × UpdateKind) :=
  match sortBy rankAscLe l with
  | [] => []
  | r :: rs => (r, UpdateKind.initial) :: kindsGo r rs

/-- Embedding of `prepare.py` lines 136-144: running (expanding, inclusive)
maxima of major and rank over the chronologically sorted group; a row whose
major is below the inclusive running-max major gets the running-max rank as
its provisional `backported` value, otherwise NaN (here `none`). -/
def backportScanGo (mM mR : Nat) : List Rel → List (Rel × Option Nat)
  | [] => []
  | r :: rs =>
    (r, if r.major < max mM r.major then some (max mR r.rank) else none)
      :: backportScanGo (max mM r.major) (max mR r.rank) rs

/-- The backport scan started with the empty running maxima. -/
def backportScan (l : List Rel) : List (Rel × Option Nat) := backportScanGo 0 0 l

/-- Row lookup by rank; embeds the merges of `prepare.py` lines 151-165,
which join the group against itself on the rank key (ranks are unique within
a group, so a merge is a lookup). -/
def findByRank (l : List Rel) (k : Nat) : Option Rel := l.find? (fun r => r.rank == k)

/-- The date `Timestamp('1900-01-01')` substituted for a missing next
neighbor (`prepare.py` line 168), on the day scale used here. -/
def sentinelDate : Int := 0

/-- Embedding of `prepare.py` lines 146-175: for a row with provisional
backported value R, find the rank-R row ("previous") and the rank-(R+1) row
("next", via the shifted-rank merge); keep the previous rank when its date is
at least as close, otherwise the next rank.  A missing next date is replaced
by the 1900-01-01 sentinel and a missing next rank stays NaN (`none`); a
missing previous date makes the comparison NaN, hence false, selecting the
next rank. -/
def backportedFromOf (l : List Rel) (r : Rel) : Option Nat → Option Nat
  | none => none
  | some R =>
    match findByRank l R, findByRank l (R + 1) with
    | some p, some n =>
        if |r.date - p.date| ≤ |r.date - n.date| then some p.rank else some n.rank
    | some p, none =>
        if |r.date - p.date| ≤ |r.date - sentinelDate| then some p.rank else none
    | none, some n => some n.rank
    | none, none => none

/-- The backport columns of the classified output, in chronological row
order: each row with its final `backported` boolean (`prepare.py` line 177)
and its `backported_from` value. -/
def backportOutput (l : List Rel) : List (Rel × Bool × Option Nat) :=
  (backportScan (sortBy chronoLe l)).map
    (fun x => (x.1, x.2.isSome, backportedFromOf (sortBy chronoLe l) x.1 x.2))

/-- Example history: 1.0.0 (rank 1, day 0), 1.0.1 (rank 2, day 20),
2.0.0 (rank 3, day 10), 2.1.0 (rank 4, day 30).  Chronologically the patch
release 1.0.1 appears after 2.0.0 and is a backport; its date is equidistant
(10 days) from 2.0.0 and 2.1.0. -/
def exR1 : Rel := ⟨1, 0, 0, 1, 0⟩

/-- Second row of the example history (the backported release). -/
def exR2 : Rel := ⟨1, 0, 1, 2, 20⟩

/-- Third row of the example history (the newer major line). -/
def exR3 : Rel := ⟨2, 0, 0, 3, 10⟩

/-- Fourth row of the example history. -/
def exR4 : Rel := ⟨2, 1, 0, 4, 30⟩

/-- The example history as a list. -/
def exHistory : List Rel := [exR1, exR2, exR3, exR4]

/-! ### Rank assignment (`convert.py` lines 73-84) -/

/-- A raw release row before rank assignment. -/
structure RRel where
  major : Nat
  minor : Nat
  patch : Nat
  date : Int
deriving DecidableEq, Repr

/-- Comparison of `sort_values(['major', 'minor', 'patch'])`
(`convert.py` line 77). -/
def verLe (a b : RRel) : Bool :=
  decide (a.major < b.major) ||
    (a.major == b.major && (decide (a.minor < b.minor) ||
      (a.minor == b.minor && decide (a.patch ≤ b.patch))))

/-- Pair each element with its 1-based position: the `cumsum` of a column of
ones in `convert.py` lines 79 and 83. -/
def withPositions (l : List α) : List (α × Nat) :=
  l.enum.map (fun x => (x.2, x.1 + 1))

/-- `rank` assignment: sort by version components, number 1..N. -/
def rankByVersion (l : List RRel) : List (RRel × Nat) := withPositions (sortBy verLe l)

/-- Comparison of `sort_values(['date', 'rank'])` (`convert.py` line 82). -/
def dateRankLe (a b : RRel × Nat) : Bool :=
  decide (a.1.date < b.1.date) || (decide (a.1.date = b.1.date) && decide (a.2 ≤ b.2))

/-- Embedding of the rank assignment of `convert.py` lines 73-84: each row
with its `rank` (by version order) and its `rank_date` (by date order, ties
broken by `rank`). -/
def assignRanks (l : List RRel) : List (RRel × Nat × Nat) :=
  (withPositions (sortBy dateRankLe (rankByVersion l))).map
    (fun x => (x.1.1, x.1.2, x.2))

/-- Strict version-component order on raw rows. -/
def vkeyLt (a b : RRel) : Prop :=
  a.major < b.major ∨ (a.major = b.major ∧
    (a.minor < b.minor ∨ (a.minor = b.minor ∧ a.patch < b.patch)))

/-- Strict (date, version-rank) order on ranked rows. -/
def dkeyLt (a b : RRel × Nat) : Prop :=
  a.1.date < b.1.date ∨ (a.1.date = b.1.date ∧ a.2 < b.2)

/-- Three raw releases with distinct versions, used as a concrete witness. -/
def exRaw : List RRel := [⟨1, 0, 0, 5⟩, ⟨2, 0, 0, 3⟩, ⟨1, 1, 0, 3⟩]

end Secos

namespace Secos

theorem perm_insertBy (le : α → α → Bool) (a : α) :
    ∀ l : List α, (insertBy le a l).Perm (a :: l) := by
  intro l
  induction l with
  | nil => simp [insertBy]
  | cons b l ih =>
    by_cases h : le a b
    · simp [insertBy, h]
    · simp only [insertBy, h, Bool.false_eq_true, not_false_iff, ite_false]
      exact (ih.cons b).trans (List.Perm.swap a b l)

theorem perm_sortBy (le : α → α → Bool) :
    ∀ l : List α, (sortBy le l).Perm l := by
  intro l
  induction l with
  | nil => simp [sortBy]
  | cons a l ih => exact (perm_insertBy le a (sortBy le l)).trans (ih.cons a)

theorem pairwise_insertBy {le : α → α → Bool}
    (htrans : ∀ a b c, le a b = true → le b c = true → le a c = true)
    (htotal : ∀ a b, le a b = true ∨ le b a = true) (a : α) :
    ∀ {l : List α}, l.Pairwise (fun x y => le x y = true) →
      (insertBy le a l).Pairwise (fun x y => le x y = true) := by
  intro l
  induction l with
  | nil => intro _; simp [insertBy]
  | cons b l ih =>
    intro hp
    rw [List.pairwise_cons] at hp
    obtain ⟨hb, hl⟩ := hp
    by_cases h : le a b
    · simp only [insertBy, h, ite_true]
      refine List.Pairwise.cons ?_ (List.Pairwise.cons hb hl)
      intro y hy
      rcases List.mem_cons.mp hy with rfl | hy
      · exact h
      · exact htrans a b y h (hb y hy)
    · simp only [insertBy, h, Bool.false_eq_true, not_false_iff, ite_false]
      refine List.Pairwise.cons ?_ (ih hl)
      intro y hy
      have hy' := (perm_insertBy le a l).mem_iff.mp hy
      rcases List.mem_cons.mp hy' with heq | hy'
      · rcases htotal a b with hab | hba
        · exact absurd hab h
        · rw [heq]
          exact hba
      · exact hb y hy'

theorem pairwise_sortBy {le : α → α → Bool}
    (htrans : ∀ a b c, le a b = true → le b c = true → le a c = true)
    (htotal : ∀ a b, le a b = true ∨ le b a = true) :
    ∀ l : List α, (sortBy le l).Pairwise (fun x y => le x y = true) := by
  intro l
  induction l with
  | nil => simp [sortBy]
  | cons a l ih => exact pairwise_insertBy htrans htotal a ih

theorem sorted_selector (l : List SRel) :
    (sortBy rankDescLe l).Pairwise (fun a b => b.rank ≤ a.rank) := by
  have h := @pairwise_sortBy _ rankDescLe
    (fun a b c hab hbc => by
      simp only [rankDescLe, decide_eq_true_eq] at hab hbc ⊢
      omega)
    (fun a b => by
      simp only [rankDescLe, decide_eq_true_eq]
      omega) l
  exact h.imp (fun hab => by
    simpa only [rankDescLe, decide_eq_true_eq] using hab)

/-- On a list sorted by descending rank, `find?` returns a satisfying
element whose rank dominates every satisfying element of the list. -/
theorem find_desc_max {p : SRel → Bool} :
    ∀ {s : List SRel}, s.Pairwise (fun a b => b.rank ≤ a.rank) →
      ∀ {r : SRel}, s.find? p = some r →
        r ∈ s ∧ p r = true ∧ ∀ y ∈ s, p y = true → y.rank ≤ r.rank := by
  intro s
  induction s with
  | nil => intro _ r h; simp at h
  | cons x xs ih =>
    intro hp r hfind
    rw [List.pairwise_cons] at hp
    obtain ⟨hx, hxs⟩ := hp
    by_cases hpx : p x = true
    · rw [List.find?_cons_of_pos _ hpx] at hfind
      obtain rfl : x = r := by injection hfind
      refine ⟨List.mem_cons_self x xs, hpx, ?_⟩
      intro y hy _
      rcases List.mem_cons.mp hy with rfl | hy
      · exact Nat.le_refl _
      · exact hx y hy
    · rw [List.find?_cons_of_neg _ hpx] at hfind
      obtain ⟨hmem, hpr, hmax⟩ := ih hxs hfind
      refine ⟨List.mem_cons_of_mem x hmem, hpr, ?_⟩
      intro y hy hpy
      rcases List.mem_cons.mp hy with rfl | hy
      · exact absurd hpy hpx
      · exact hmax y hy hpy

/-- C5: `parse_or_empty` is total: it always returns an interval, the empty
interval on any parse failure and the parsed interval on success; no failure
propagates to the caller. -/
theorem parse_or_empty_total (p : ConstraintParser) (raw : String) :
    (∀ e, p.parse raw = Except.error e → parse_or_empty p raw = Interval.emptyI) ∧
    (∀ I, p.parse raw = Except.ok I → parse_or_empty p raw = I) := by
  constructor
  · intro e he
    simp [parse_or_empty, he]
  · intro I hI
    simp [parse_or_empty, hI]

/-- Witness for C5 at the always-failing parser and an arbitrary string. -/
theorem parse_or_empty_total_witness :
    parse_or_empty failingParser "~1.x" = Interval.emptyI :=
  (parse_or_empty_total failingParser "~1.x").1 "unparsable" rfl

/-- C7: for a non-empty interval the `major` descriptor is true iff the
sentinel version (infinity, 0, 0) is a member of the interval. -/
theorem descriptor_major_iff (I : Interval) (h : I.isEmpty = false) :
    (descriptorsOf I).major = I.contains ⟨⊤, 0, 0⟩ := by
  simp [descriptorsOf, h]

/-- Witness for C7 at a concrete non-empty interval. -/
theorem descriptor_major_iff_witness :
    (descriptorsOf sampleOpenInterval).major
      = Interval.contains sampleOpenInterval ⟨⊤, 0, 0⟩ :=
  descriptor_major_iff sampleOpenInterval rfl

/-- C8: whenever a constraint string parses (through `parse_or_empty`) to the
empty interval, the derived descriptors are exactly `empty = true` and
`dev = major = minor = patch = false`. -/
theorem empty_interval_descriptors (p : ConstraintParser) (raw : String)
    (h : (parse_or_empty p raw).isEmpty = true) :
    descriptorsOf (parse_or_empty p raw) = ⟨true, false, false, false, false⟩ := by
  simp [descriptorsOf, h]

/-- Witness for C8 at the always-failing parser. -/
theorem empty_interval_descriptors_witness :
    descriptorsOf (parse_or_empty failingParser ">=bogus")
      = ⟨true, false, false, false, false⟩ :=
  empty_interval_descriptors failingParser ">=bogus" rfl

/-- C4: the selected value for (target, constraint) is absent exactly when no
release's version is contained in the interval (in particular on the empty
interval), and equals `k` exactly when some contained release has rank `k`
and every contained release's rank is at most `k` (the highest accepted
release). -/
theorem selected_release_spec (l : List SRel) (I : Interval) :
    (selectedOf l I = none ↔ ∀ r ∈ l, I.contains r.version = false) ∧
    (∀ k, selectedOf l I = some k ↔
      ∃ r ∈ l, r.rank = k ∧ I.contains r.version = true ∧
        ∀ t ∈ l, I.contains t.version = true → t.rank ≤ k) ∧
    (I.isEmpty = true → selectedOf l I = none) := by
  have hperm : (sortBy rankDescLe l).Perm l := perm_sortBy rankDescLe l
  have hsort := sorted_selector l
  have hnone : selectedOf l I = none ↔ ∀ r ∈ l, I.contains r.version = false := by
    simp only [selectedOf, Option.map_eq_none', List.find?_eq_none,
      Bool.not_eq_true]
    constructor
    · intro h r hr
      exact h r (hperm.mem_iff.mpr hr)
    · intro h r hr
      exact h r (hperm.mem_iff.mp hr)
  refine ⟨hnone, ?_, ?_⟩
  · intro k
    constructor
    · intro h
      simp only [selectedOf, Option.map_eq_some'] at h
      obtain ⟨r, hfind, hrank⟩ := h
      obtain ⟨hmem, hpr, hmax⟩ := find_desc_max hsort hfind
      refine ⟨r, hperm.mem_iff.mp hmem, hrank, hpr, ?_⟩
      intro t ht htc
      exact hrank ▸ hmax t (hperm.mem_iff.mpr ht) htc
    · rintro ⟨r, hrl, hrk, hrc, hmaxl⟩
      have hrs : r ∈ sortBy rankDescLe l := hperm.mem_iff.mpr hrl
      cases hfind : (sortBy rankDescLe l).find? (fun t => I.contains t.version) with
      | none =>
        exact absurd hrc (List.find?_eq_none.mp hfind r hrs)
      | some r' =>
        obtain ⟨hm', hp', hmax'⟩ := find_desc_max hsort hfind
        have h1 : r'.rank ≤ k := hmaxl r' (hperm.mem_iff.mp hm') hp'
        have h2 : k ≤ r'.rank := hrk ▸ hmax' r hrs hrc
        have : r'.rank = k := Nat.le_antisymm h1 h2
        simp [selectedOf, hfind, this]
  · intro he
    refine hnone.mpr ?_
    intro r _
    have hrs : I.ranges = [] := by
      simpa [Interval.isEmpty, List.isEmpty_iff] using he
    simp [Interval.contains, hrs]

/-- Witness for C4: on the spec's example releases, `[1.2.0, 2.0.0)` selects
rank 3 (version 1.9.0), and the empty interval selects nothing. -/
theorem selected_release_spec_witness :
    selectedOf sampleReleases sampleNarrow = some 3 ∧
    selectedOf sampleReleases Interval.emptyI = none :=
  ⟨((selected_release_spec sampleReleases sampleNarrow).2.1 3).mpr
      ⟨⟨⟨1, 9, 0⟩, 3⟩, by decide⟩,
    (selected_release_spec sampleReleases Interval.emptyI).2.2 rfl⟩

theorem contains_widenLast (v : Version) :
    ∀ rs : List VRange, rs.any (VRange.mem v) = true →
      (widenLast rs).any (VRange.mem v) = true := by
  intro rs
  induction rs with
  | nil => simp [widenLast]
  | cons R rs ih =>
    cases rs with
    | nil =>
      intro h
      simp only [List.any_cons, List.any_nil, Bool.or_false] at h
      simp only [widenLast, List.any_cons, List.any_nil, Bool.or_false]
      simp only [VRange.mem, Bool.and_eq_true] at h ⊢
      exact ⟨h.1, by simp⟩
    | cons S rs' =>
      intro h
      simp only [widenLast, List.any_cons, Bool.or_eq_true] at h ⊢
      rcases h with h | h
      · exact Or.inl h
      · have := ih (by simpa [List.any_cons, Bool.or_eq_true] using h)
        simpa [List.any_cons, Bool.or_eq_true] using Or.inr this

theorem contains_widenUpper (I : Interval) (v : Version)
    (h : I.contains v = true) : I.widenUpper.contains v = true :=
  contains_widenLast v I.ranges h

/-- C6: widening a constraint interval's upper bound to unbounded preserves
selectability and never lowers the selected version rank. -/
theorem selector_monotone_widen (l : List SRel) (I : Interval) (k : Nat)
    (h : selectedOf l I = some k) :
    ∃ q, selectedOf l I.widenUpper = some q ∧ k ≤ q := by
  have hsort := sorted_selector l
  simp only [selectedOf, Option.map_eq_some'] at h
  obtain ⟨r, hfind, hrank⟩ := h
  obtain ⟨hmem, hpr, _⟩ := find_desc_max hsort hfind
  have hq : I.widenUpper.contains r.version = true := contains_widenUpper I _ hpr
  cases hfind' : (sortBy rankDescLe l).find? (fun t => I.widenUpper.contains t.version) with
  | none =>
    exact absurd hq (List.find?_eq_none.mp hfind' r hmem)
  | some r' =>
    obtain ⟨_, _, hmax'⟩ := find_desc_max hsort hfind'
    refine ⟨r'.rank, by simp [selectedOf, hfind'], ?_⟩
    exact hrank ▸ hmax' r hmem hq

/-- Witness for C6 at the spec's example: the narrow interval selects rank 3
and the widened one selects a rank ≥ 3. -/
theorem selector_monotone_widen_witness :
    ∃ q, selectedOf sampleReleases sampleNarrow.widenUpper = some q ∧ 3 ≤ q :=
  selector_monotone_widen sampleReleases sampleNarrow 3 (by decide)

theorem backportScanGo_length :
    ∀ (s : List Rel) (mM mR : Nat), (backportScanGo mM mR s).length = s.length := by
  intro s
  induction s with
  | nil => intro mM mR; rfl
  | cons r rs ih => intro mM mR; simp [backportScanGo, ih]

theorem backportScan_length (s : List Rel) : (backportScan s).length = s.length :=
  backportScanGo_length s 0 0

theorem backportScanGo_get_fst :
    ∀ (s : List Rel) (mM mR : Nat) (i : Nat) (hi : i < s.length),
      ((backportScanGo mM mR s).get
          ⟨i, by rw [backportScanGo_length]; exact hi⟩).1 = s.get ⟨i, hi⟩ := by
  intro s
  induction s with
  | nil => intro mM mR i hi; exact absurd hi (Nat.not_lt_zero i)
  | cons r rs ih =>
    intro mM mR i hi
    cases i with
    | zero => rfl
    | succ j =>
      have h := ih (max mM r.major) (max mR r.rank) j (Nat.lt_of_succ_lt_succ hi)
      simpa [backportScanGo] using h

theorem isSome_ite_option {c : Prop} [Decidable c] (y : Nat) :
    ((if c then some y else none : Option Nat)).isSome = true ↔ c := by
  by_cases h : c
  · simp [h]
  · simp [h]

theorem backportScanGo_isSome :
    ∀ (s : List Rel) (mM mR : Nat) (i : Nat) (hi : i < s.length),
      ((((backportScanGo mM mR s).get
          ⟨i, by rw [backportScanGo_length]; exact hi⟩).2).isSome = true
        ↔ ((s.get ⟨i, hi⟩).major < mM ∨
            ∃ r ∈ s.take i, (s.get ⟨i, hi⟩).major < r.major)) := by
  intro s
  induction s with
  | nil => intro mM mR i hi; exact absurd hi (Nat.not_lt_zero i)
  | cons x t ih =>
    intro mM mR i hi
    cases i with
    | zero =>
      simp only [backportScanGo, List.get, List.take_zero]
      rw [isSome_ite_option]
      simp [lt_max_iff]
    | succ j =>
      have hj : j < t.length := Nat.lt_of_succ_lt_succ hi
      have h := ih (max mM x.major) (max mR x.rank) j hj
      constructor
      · intro hx
        have h' := h.mp (by simpa [backportScanGo] using hx)
        rcases h' with h' | ⟨r, hr, hlt⟩
        · rcases lt_max_iff.mp h' with h'' | h''
          · exact Or.inl h''
          · refine Or.inr ⟨x, ?_, h''⟩
            rw [List.take_succ_cons]
            exact List.mem_cons_self x (t.take j)
        · refine Or.inr ⟨r, ?_, hlt⟩
          rw [List.take_succ_cons]
          exact List.mem_cons_of_mem x hr
      · intro hx
        have h' : (t.get ⟨j, hj⟩).major < max mM x.major ∨
            ∃ r ∈ t.take j, (t.get ⟨j, hj⟩).major < r.major := by
          rcases hx with h'' | ⟨r, hr, hlt⟩
          · exact Or.inl (lt_max_iff.mpr (Or.inl h''))
          · rw [List.take_succ_cons] at hr
            rcases List.mem_cons.mp hr with heq | hr'
            · exact Or.inl (lt_max_iff.mpr (Or.inr (heq ▸ hlt)))
            · exact Or.inr ⟨r, hr', hlt⟩
        have := h.mpr h'
        simpa [backportScanGo] using this

/-- C1: in chronological order (date ascending, ties broken by rank), a
release is flagged backported exactly when a strictly earlier release has a
strictly greater major: the code's inclusive running maximum with a strict
comparison is equivalent to the exclude-itself formulation. -/
theorem backported_iff_earlier_major (l : List Rel) (i : Nat)
    (hi : i < (sortBy chronoLe l).length) :
    ((backportScan (sortBy chronoLe l)).get
        ⟨i, by rw [backportScan_length]; exact hi⟩).1 = (sortBy chronoLe l).get ⟨i, hi⟩
    ∧ ((((backportScan (sortBy chronoLe l)).get
        ⟨i, by rw [backportScan_length]; exact hi⟩).2).isSome = true
      ↔ ∃ r ∈ (sortBy chronoLe l).take i,
          ((sortBy chronoLe l).get ⟨i, hi⟩).major < r.major) := by
  constructor
  · exact backportScanGo_get_fst (sortBy chronoLe l) 0 0 i hi
  · have h := backportScanGo_isSome (sortBy chronoLe l) 0 0 i hi
    simpa using h

/-- Witness for C1: in the example history, the release at chronological
position 2 (the 1.0.1 backport, published after 2.0.0) is flagged. -/
theorem backported_iff_earlier_major_witness :
    (((backportScan (sortBy chronoLe exHistory)).get
        ⟨2, by rw [backportScan_length]; decide⟩).2).isSome = true :=
  (backported_iff_earlier_major exHistory 2 (by decide)).2.mpr ⟨exR3, by decide⟩

/-- C10: a release whose backported flag is false never carries a
backported_from value. -/
theorem backported_from_none_of_not_backported (l : List Rel) :
    ∀ e ∈ backportOutput l, e.2.1 = false → e.2.2 = none := by
  intro e he hflag
  simp only [backportOutput, List.mem_map] at he
  obtain ⟨x, _, rfl⟩ := he
  cases hx2 : x.2 with
  | none => simp [hx2, backportedFromOf]
  | some R => simp [hx2] at hflag

/-- Witness for C10 at the first (non-backported) row of the example. -/
theorem backported_from_none_of_not_backported_witness :
    ((backportOutput exHistory).get ⟨0, by decide⟩).2.2 = none :=
  backported_from_none_of_not_backported exHistory
    ((backportOutput exHistory).get ⟨0, by decide⟩) (by decide) (by decide)

theorem kindOf_spec (prev cur : Rel) :
    (kindOf prev cur = UpdateKind.major ↔ prev.major < cur.major)
    ∧ (kindOf prev cur = UpdateKind.minor ↔
        (¬ prev.major < cur.major ∧ prev.minor < cur.minor))
    ∧ (kindOf prev cur = UpdateKind.patch ↔
        (¬ prev.major < cur.major ∧ ¬ prev.minor < cur.minor ∧ prev.patch < cur.patch))
    ∧ (kindOf prev cur = UpdateKind.initial ↔
        (¬ prev.major < cur.major ∧ ¬ prev.minor < cur.minor ∧
          ¬ prev.patch < cur.patch)) := by
  unfold kindOf
  split_ifs with h1 h2 h3 <;> simp_all

theorem kindsGo_eq_zip :
    ∀ (t : List Rel) (prev : Rel),
      kindsGo prev t = ((prev :: t).zip t).map (fun pc => (pc.2, kindOf pc.1 pc.2)) := by
  intro t
  induction t with
  | nil => intro prev; rfl
  | cons r rs ih => intro prev; simp [kindsGo, List.zip_cons_cons, ih r]

/-- C3 (amended): in the rank-sorted order, position 0 gets `initial`; a row
at position j+1 gets `major`/`minor`/`patch` for the first strictly positive
component delta against the row at position j, and `initial` (the `idxmax`
fallback to the first column) when no component increased. -/
theorem update_kind_spec (l : List Rel) (i : Nat) (cur : Rel) (k : UpdateKind)
    (hget : (updateKindsOf l)[i]? = some (cur, k)) :
    (sortBy rankAscLe l)[i]? = some cur
    ∧ (i = 0 → k = UpdateKind.initial)
    ∧ (∀ j prev, i = j + 1 → (sortBy rankAscLe l)[j]? = some prev →
        ((k = UpdateKind.major ↔ prev.major < cur.major)
         ∧ (k = UpdateKind.minor ↔
             (¬ prev.major < cur.major ∧ prev.minor < cur.minor))
         ∧ (k = UpdateKind.patch ↔
             (¬ prev.major < cur.major ∧ ¬ prev.minor < cur.minor ∧
               prev.patch < cur.patch))
         ∧ (k = UpdateKind.initial ↔
             (¬ prev.major < cur.major ∧ ¬ prev.minor < cur.minor ∧
               ¬ prev.patch < cur.patch)))) := by
  unfold updateKindsOf at hget
  cases hs : sortBy rankAscLe l with
  | nil =>
    rw [hs] at hget
    simp at hget
  | cons r rs =>
    rw [hs] at hget
    change ((r, UpdateKind.initial) :: kindsGo r rs)[i]? = some (cur, k) at hget
    cases i with
    | zero =>
      rw [List.getElem?_cons_zero] at hget
      obtain ⟨rfl, rfl⟩ : r = cur ∧ UpdateKind.initial = k := by
        have h := Option.some.inj hget
        exact ⟨congrArg Prod.fst h, congrArg Prod.snd h⟩
      refine ⟨List.getElem?_cons_zero, fun _ => rfl, ?_⟩
      intro j prev hij
      exact absurd hij (by omega)
    | succ n =>
      rw [List.getElem?_cons_succ] at hget
      rw [kindsGo_eq_zip] at hget
      rw [List.getElem?_map] at hget
      cases hz : ((r :: rs).zip rs)[n]? with
      | none => rw [hz] at hget; simp at hget
      | some pc =>
        rw [hz] at hget
        simp only [Option.map_some'] at hget
        have hpc := Option.some.inj hget
        have hcur : pc.2 = cur := congrArg Prod.fst hpc
        have hk : kindOf pc.1 pc.2 = k := congrArg Prod.snd hpc
        have hz' : (r :: rs)[n]? = some pc.1 ∧ rs[n]? = some pc.2 :=
          List.getElem?_zip_eq_some.mp hz
        refine ⟨?_, ?_, ?_⟩
        · show (r :: rs)[n + 1]? = some cur
          rw [List.getElem?_cons_succ]
          simpa [hcur] using hz'.2
        · intro h0; exact absurd h0 (by omega)
        · intro j prev hij hprev
          obtain rfl : j = n := by omega
          have hpeq : prev = pc.1 := by
            rw [hz'.1] at hprev
            exact (Option.some.inj hprev).symm
          subst hpeq
          rw [← hk, ← hcur]
          exact kindOf_spec pc.1 pc.2

/-- Witness for C3 at the example history: the row at rank position 1
(1.0.1 after 1.0.0) is a patch update. -/
theorem update_kind_spec_witness :
    (sortBy rankAscLe exHistory)[1]? = some exR2 ∧
    (¬ exR1.major < exR2.major ∧ ¬ exR1.minor < exR2.minor ∧
      exR1.patch < exR2.patch) := by
  have h := update_kind_spec exHistory 1 exR2 UpdateKind.patch (by decide)
  exact ⟨h.1, ((h.2.2 0 exR1 rfl (by decide)).2.2.1).mp rfl⟩

theorem findByRank_eq_some_of_mem {s : List Rel} (hnd : (s.map Rel.rank).Nodup)
    {p : Rel} (hp : p ∈ s) : findByRank s p.rank = some p := by
  induction s with
  | nil => cases hp
  | cons x t ih =>
    rw [List.map_cons, List.nodup_cons] at hnd
    obtain ⟨hx, hnd'⟩ := hnd
    rcases List.mem_cons.mp hp with heq | hp'
    · subst heq
      unfold findByRank
      rw [List.find?_cons_of_pos _ (by simp)]
    · have hr : x.rank ≠ p.rank := by
        intro hEq
        exact hx (hEq ▸ List.mem_map_of_mem Rel.rank hp')
      unfold findByRank
      rw [List.find?_cons_of_neg _ (by simp [hr])]
      exact ih hnd' hp'

theorem backportOutput_length (l : List Rel) :
    (backportOutput l).length = (sortBy chronoLe l).length := by
  simp [backportOutput, backportScan_length]

theorem backportOutput_get (l : List Rel) (i : Nat)
    (hi : i < (sortBy chronoLe l).length) :
    (backportOutput l).get ⟨i, by rw [backportOutput_length]; exact hi⟩ =
      (((backportScan (sortBy chronoLe l)).get
          ⟨i, by rw [backportScan_length]; exact hi⟩).1,
        (((backportScan (sortBy chronoLe l)).get
          ⟨i, by rw [backportScan_length]; exact hi⟩).2).isSome,
        backportedFromOf (sortBy chronoLe l)
          ((backportScan (sortBy chronoLe l)).get
            ⟨i, by rw [backportScan_length]; exact hi⟩).1
          ((backportScan (sortBy chronoLe l)).get
            ⟨i, by rw [backportScan_length]; exact hi⟩).2) := by
  simp [backportOutput, List.get_eq_getElem, List.getElem_map]

/-- C2 (amended): for a release flagged backported, with R its inclusive
running-maximum rank, `backported_from` is R when the rank-R release's date
is at least as close (by absolute difference) to its own date as the
rank-(R+1) release's, and R+1 otherwise — so an exact tie picks R, not R+1;
when no release has rank R+1 the comparison is made against the fixed
1900-01-01 sentinel date instead, and the value is R when the rank-R
release's date is at least as close, otherwise absent. -/
theorem backported_from_spec (l : List Rel)
    (hnd : (l.map Rel.rank).Nodup) (i : Nat)
    (hi : i < (sortBy chronoLe l).length) (R : Nat)
    (hflag : (((backportScan (sortBy chronoLe l)).get
        ⟨i, by rw [backportScan_length]; exact hi⟩).2) = some R)
    (p : Rel) (hp : p ∈ l) (hpR : p.rank = R) :
    (∀ n ∈ l, n.rank = R + 1 →
      ((backportOutput l).get ⟨i, by rw [backportOutput_length]; exact hi⟩).2.2 =
        (if |((sortBy chronoLe l).get ⟨i, hi⟩).date - p.date|
             ≤ |((sortBy chronoLe l).get ⟨i, hi⟩).date - n.date|
         then some R else some (R + 1)))
    ∧ ((∀ n ∈ l, n.rank ≠ R + 1) →
      ((backportOutput l).get ⟨i, by rw [backportOutput_length]; exact hi⟩).2.2 =
        (if |((sortBy chronoLe l).get ⟨i, hi⟩).date - p.date|
             ≤ |((sortBy chronoLe l).get ⟨i, hi⟩).date - sentinelDate|
         then some R else none)) := by
  have hperm := perm_sortBy chronoLe l
  have hnds : ((sortBy chronoLe l).map Rel.rank).Nodup :=
    ((hperm.map Rel.rank).nodup_iff).mpr hnd
  have hps : p ∈ sortBy chronoLe l := hperm.mem_iff.mpr hp
  have hfR : findByRank (sortBy chronoLe l) R = some p := by
    rw [← hpR]
    exact findByRank_eq_some_of_mem hnds hps
  have hfst := backportScanGo_get_fst (sortBy chronoLe l) 0 0 i hi
  have hout := backportOutput_get l i hi
  constructor
  · intro n hn hnR
    have hns : n ∈ sortBy chronoLe l := hperm.mem_iff.mpr hn
    have hfN : findByRank (sortBy chronoLe l) (R + 1) = some n := by
      rw [← hnR]
      exact findByRank_eq_some_of_mem hnds hns
    rw [hout]
    show backportedFromOf (sortBy chronoLe l) _ _ = _
    rw [hflag]
    simp only [backportedFromOf, hfR, hfN, backportScan, hfst, hpR, hnR]
  · intro hnone
    have hfN : findByRank (sortBy chronoLe l) (R + 1) = none := by
      apply List.find?_eq_none.mpr
      intro r hr
      simp only [beq_iff_eq]
      exact fun hEq => hnone r (hperm.mem_iff.mp hr) hEq
    rw [hout]
    show backportedFromOf (sortBy chronoLe l) _ _ = _
    rw [hflag]
    simp only [backportedFromOf, hfR, hfN, backportScan, hfst, hpR]

/-- Witness for C2's amended theorem at the example history: the backport at
chronological position 2 (1.0.1, R = 3) with next neighbor 2.1.0 (rank 4). -/
theorem backported_from_spec_witness :
    ((backportOutput exHistory).get
        ⟨2, by rw [backportOutput_length]; decide⟩).2.2 =
      (if |((sortBy chronoLe exHistory).get ⟨2, by decide⟩).date - exR3.date|
           ≤ |((sortBy chronoLe exHistory).get ⟨2, by decide⟩).date - exR4.date|
       then some 3 else some 4) :=
  (backported_from_spec exHistory (by decide) 2 (by decide) 3 (by decide)
    exR3 (by decide) rfl).1 exR4 (by decide) rfl

/-- Counterexample for C2 as stated: in the example history the backported
release 1.0.1 (day 20) is equidistant (10 days) from the rank-3 release
2.0.0 (day 10) and the rank-4 release 2.1.0 (day 30); the code's `<=`
comparison keeps the R = 3 candidate on this tie, while the claim requires
the R+1 = 4 candidate. -/
theorem backported_from_tie_counterexample :
    ((backportOutput exHistory).map (fun e => (e.2.1, e.2.2)))
      = [(false, none), (false, none), (true, some 3), (false, none)]
    ∧ some 3 ≠ (some 4 : Option Nat) := by
  exact ⟨by decide, by decide⟩

/-- Counterexample for C3 as stated: two consecutive rows with identical
(major, minor, patch) make `idxmax` fall back to its first column
`kinitial`, so the second row's kind is `initial`, not the claimed
`patch`. -/
theorem update_kind_default_counterexample :
    (updateKindsOf [⟨1, 2, 3, 1, 0⟩, ⟨1, 2, 3, 2, 5⟩]).map Prod.snd
      = [UpdateKind.initial, UpdateKind.initial]
    ∧ UpdateKind.initial ≠ UpdateKind.patch := by
  exact ⟨by decide, by decide⟩

theorem withPositions_length (l : List α) : (withPositions l).length = l.length := by
  simp [withPositions]

theorem withPositions_map_fst (l : List α) : (withPositions l).map Prod.fst = l := by
  unfold withPositions
  rw [List.map_map]
  have hf : (Prod.fst ∘ fun x : Nat × α => (x.2, x.1 + 1)) = Prod.snd :=
    funext fun x => rfl
  rw [hf, List.enum_map_snd]

theorem withPositions_map_snd (l : List α) :
    (withPositions l).map Prod.snd = List.range' 1 l.length := by
  unfold withPositions
  rw [List.map_map]
  have hf : (Prod.snd ∘ fun x : Nat × α => (x.2, x.1 + 1))
      = (fun n => n + 1) ∘ Prod.fst := funext fun x => rfl
  rw [hf, ← List.map_map, List.enum_map_fst, List.range'_eq_map_range]
  simp [Nat.add_comm]

theorem withPositions_map_comp_fst (t : List α) (g : α → β) :
    (withPositions t).map (fun y => g y.1) = t.map g := by
  have h := congrArg (List.map g) (withPositions_map_fst t)
  rw [List.map_map] at h
  exact h

theorem pairwise_withPositions {R : α → α → Prop} {t : List α} (h : t.Pairwise R) :
    (withPositions t).Pairwise (fun a b => R a.1 b.1 ∧ a.2 < b.2) := by
  rw [List.pairwise_iff_get] at h ⊢
  intro i j hij
  have hi : (i : Nat) < t.length := by
    have h' := i.isLt
    simpa [withPositions_length] using h'
  have hj : (j : Nat) < t.length := by
    have h' := j.isLt
    simpa [withPositions_length] using h'
  have hv : (i : Nat) < (j : Nat) := hij
  simp only [withPositions, List.get_eq_getElem, List.getElem_map,
    List.getElem_enum]
  exact ⟨h ⟨i, hi⟩ ⟨j, hj⟩ hv, by omega⟩

theorem rankByVersion_map_fst (l : List RRel) :
    (rankByVersion l).map Prod.fst = sortBy verLe l :=
  withPositions_map_fst (sortBy verLe l)

theorem rankByVersion_map_snd (l : List RRel) :
    (rankByVersion l).map Prod.snd = List.range' 1 (sortBy verLe l).length :=
  withPositions_map_snd (sortBy verLe l)

/-- On a list that is pairwise R-and-S ordered, R and S agree on every pair
of members as soon as both are asymmetric. -/
theorem pairwise_and_iff_mem {l : List α} {R S : α → α → Prop}
    (hpair : l.Pairwise (fun a b => R a b ∧ S a b))
    (hR : ∀ a b, R a b → R b a → False)
    (hS : ∀ a b, S a b → S b a → False) :
    ∀ a ∈ l, ∀ b ∈ l, (R a b ↔ S a b) := by
  intro a ha b hb
  obtain ⟨ia, hia⟩ := List.mem_iff_get.mp ha
  obtain ⟨ib, hib⟩ := List.mem_iff_get.mp hb
  rw [List.pairwise_iff_get] at hpair
  rcases Nat.lt_trichotomy ia.val ib.val with hlt | heq | hgt
  · have h := hpair ia ib hlt
    rw [hia, hib] at h
    exact iff_of_true h.1 h.2
  · have he : ia = ib := Fin.ext heq
    rw [← hia, ← hib, he]
    exact iff_of_false (fun h' => hR _ _ h' h') (fun h' => hS _ _ h' h')
  · have h := hpair ib ia hgt
    rw [hia, hib] at h
    exact iff_of_false (fun h' => hR _ _ h' h.1) (fun h' => hS _ _ h' h.2)

theorem verLe_trans (a b c : RRel) :
    verLe a b = true → verLe b c = true → verLe a c = true := by
  simp only [verLe, Bool.or_eq_true, Bool.and_eq_true, decide_eq_true_eq,
    beq_iff_eq]
  omega

theorem verLe_total (a b : RRel) : verLe a b = true ∨ verLe b a = true := by
  simp only [verLe, Bool.or_eq_true, Bool.and_eq_true, decide_eq_true_eq,
    beq_iff_eq]
  omega

theorem dateRankLe_trans (a b c : RRel × Nat) :
    dateRankLe a b = true → dateRankLe b c = true → dateRankLe a c = true := by
  simp only [dateRankLe, Bool.or_eq_true, Bool.and_eq_true, decide_eq_true_eq]
  omega

theorem dateRankLe_total (a b : RRel × Nat) :
    dateRankLe a b = true ∨ dateRankLe b a = true := by
  simp only [dateRankLe, Bool.or_eq_true, Bool.and_eq_true, decide_eq_true_eq]
  omega

theorem vkeyLt_asymm (a b : RRel) : vkeyLt a b → vkeyLt b a → False := by
  unfold vkeyLt
  omega

theorem dkeyLt_asymm (a b : RRel × Nat) : dkeyLt a b → dkeyLt b a → False := by
  unfold dkeyLt
  omega

theorem sorted_rankByVersion (l : List RRel)
    (hdist : l.Pairwise (fun a b =>
      ¬(a.major = b.major ∧ a.minor = b.minor ∧ a.patch = b.patch))) :
    (sortBy verLe l).Pairwise vkeyLt := by
  have hsorted := @pairwise_sortBy _ verLe verLe_trans verLe_total l
  have hne := ((perm_sortBy verLe l).pairwise_iff
    (fun {x y} h hc => h ⟨hc.1.symm, hc.2.1.symm, hc.2.2.symm⟩)).mpr hdist
  refine (hsorted.and hne).imp ?_
  intro a b hab
  obtain ⟨hle, hne'⟩ := hab
  simp only [verLe, Bool.or_eq_true, Bool.and_eq_true, decide_eq_true_eq,
    beq_iff_eq] at hle
  unfold vkeyLt
  omega

theorem sorted_byDate (l : List RRel) :
    (sortBy dateRankLe (rankByVersion l)).Pairwise dkeyLt := by
  have hsorted := @pairwise_sortBy _ dateRankLe dateRankLe_trans dateRankLe_total
    (rankByVersion l)
  have hnd : ((rankByVersion l).map Prod.snd).Nodup := by
    show ((withPositions (sortBy verLe l)).map Prod.snd).Nodup
    rw [withPositions_map_snd]
    exact List.nodup_range' 1 (sortBy verLe l).length
  have hne : (rankByVersion l).Pairwise (fun a b => a.2 ≠ b.2) :=
    List.pairwise_map.mp hnd
  have hne2 : (sortBy dateRankLe (rankByVersion l)).Pairwise
      (fun a b => a.2 ≠ b.2) :=
    ((perm_sortBy dateRankLe (rankByVersion l)).pairwise_iff
      (fun {x y} h hc => h hc.symm)).mpr hne
  refine (hsorted.and hne2).imp ?_
  intro a b hab
  obtain ⟨hle, hne'⟩ := hab
  simp only [dateRankLe, Bool.or_eq_true, Bool.and_eq_true,
    decide_eq_true_eq] at hle
  unfold dkeyLt
  omega

/-- C9: per package, `rank` is a dense 1..N numbering that orders the rows
exactly by ascending (major, minor, patch), and `rank_date` is a dense 1..N
numbering that orders the rows exactly by ascending (date, rank).  The
version triples are assumed pairwise distinct, as guaranteed by the
duplicate-dropping step directly above the ranking in `convert.py`. -/
theorem rank_assignment_spec (l : List RRel)
    (hdist : l.Pairwise (fun a b =>
      ¬(a.major = b.major ∧ a.minor = b.minor ∧ a.patch = b.patch))) :
    ((assignRanks l).map (fun x => x.1)).Perm l
    ∧ ((assignRanks l).map (fun x => x.2.1)).Perm (List.range' 1 l.length)
    ∧ ((assignRanks l).map (fun x => x.2.2)).Perm (List.range' 1 l.length)
    ∧ (∀ x ∈ assignRanks l, ∀ y ∈ assignRanks l,
        (vkeyLt x.1 y.1 ↔ x.2.1 < y.2.1))
    ∧ (∀ x ∈ assignRanks l, ∀ y ∈ assignRanks l,
        (dkeyLt (x.1, x.2.1) (y.1, y.2.1) ↔ x.2.2 < y.2.2)) := by
  have hlen1 : (sortBy verLe l).length = l.length :=
    (perm_sortBy verLe l).length_eq
  have hmap_g : (assignRanks l).map (fun z => (z.1, z.2.1))
      = sortBy dateRankLe (rankByVersion l) := by
    unfold assignRanks
    rw [List.map_map]
    exact withPositions_map_fst _
  refine ⟨?_, ?_, ?_, ?_, ?_⟩
  · have e1 : (assignRanks l).map (fun x => x.1)
        = (sortBy dateRankLe (rankByVersion l)).map Prod.fst := by
      unfold assignRanks
      rw [List.map_map]
      exact withPositions_map_comp_fst _ Prod.fst
    rw [e1]
    have h1 := (perm_sortBy dateRankLe (rankByVersion l)).map Prod.fst
    rw [rankByVersion_map_fst] at h1
    exact h1.trans (perm_sortBy verLe l)
  · have e2 : (assignRanks l).map (fun x => x.2.1)
        = (sortBy dateRankLe (rankByVersion l)).map Prod.snd := by
      unfold assignRanks
      rw [List.map_map]
      exact withPositions_map_comp_fst _ Prod.snd
    rw [e2]
    have h2 := (perm_sortBy dateRankLe (rankByVersion l)).map Prod.snd
    rw [rankByVersion_map_snd, hlen1] at h2
    exact h2
  · have e3 : (assignRanks l).map (fun x => x.2.2)
        = List.range' 1 (sortBy dateRankLe (rankByVersion l)).length := by
      unfold assignRanks
      rw [List.map_map]
      exact withPositions_map_snd _
    rw [e3]
    have hlen2 : (sortBy dateRankLe (rankByVersion l)).length = l.length := by
      rw [(perm_sortBy dateRankLe (rankByVersion l)).length_eq]
      show (withPositions (sortBy verLe l)).length = l.length
      rw [withPositions_length, hlen1]
    rw [hlen2]
  · have hP4 : ∀ a ∈ rankByVersion l, ∀ b ∈ rankByVersion l,
        (vkeyLt a.1 b.1 ↔ a.2 < b.2) :=
      pairwise_and_iff_mem (pairwise_withPositions (sorted_rankByVersion l hdist))
        (fun a b h1 h2 => vkeyLt_asymm a.1 b.1 h1 h2)
        (fun a b h1 h2 => by omega)
    intro x hx y hy
    have hx2 : (x.1, x.2.1) ∈ rankByVersion l := by
      have hmem := List.mem_map_of_mem (fun z => (z.1, z.2.1)) hx
      rw [hmap_g] at hmem
      exact (perm_sortBy dateRankLe (rankByVersion l)).mem_iff.mp hmem
    have hy2 : (y.1, y.2.1) ∈ rankByVersion l := by
      have hmem := List.mem_map_of_mem (fun z => (z.1, z.2.1)) hy
      rw [hmap_g] at hmem
      exact (perm_sortBy dateRankLe (rankByVersion l)).mem_iff.mp hmem
    exact hP4 _ hx2 _ hy2
  · have hP5 : ∀ a ∈ withPositions (sortBy dateRankLe (rankByVersion l)),
        ∀ b ∈ withPositions (sortBy dateRankLe (rankByVersion l)),
        (dkeyLt a.1 b.1 ↔ a.2 < b.2) :=
      pairwise_and_iff_mem (pairwise_withPositions (sorted_byDate l))
        (fun a b h1 h2 => dkeyLt_asymm a.1 b.1 h1 h2)
        (fun a b h1 h2 => by omega)
    intro x hx y hy
    unfold assignRanks at hx hy
    obtain ⟨u, hu, hux⟩ := List.mem_map.mp hx
    obtain ⟨v, hv, hvy⟩ := List.mem_map.mp hy
    rw [← hux, ← hvy]
    exact hP5 u hu v hv

/-- Witness for C9 at three concrete releases with distinct versions. -/
theorem rank_assignment_spec_witness :
    ((assignRanks exRaw).map (fun x => x.1)).Perm exRaw :=
  (rank_assignment_spec exRaw (by decide)).1

end Secos
